import Mathlib

/-!
Verification of the route-optimization core of the repository
(`app.py`): the batched distance-matrix builder
(`calculate_distance_matrix`) and the MIP-based TSP optimizer
(`optimize_route`), together with the `Route` data model.

Distances are modelled as rationals (the source uses Python floats;
all claims are about exact arithmetic relationships).  Machine indices
are natural numbers / `Fin n`.
-/

namespace PyTsp

/-! ## Distance-matrix builder (`calculate_distance_matrix`)

The collaborator (`gmaps.distance_matrix`) answers one block query per
(origin-block, destination-block) pair.  Each answered grid cell is a
status plus a distance value; `result["rows"][i_local]["elements"][j_local]`
is the answer for the global pair `(i_start + i_local, j_start + j_local)`,
so a collaborator giving identical per-cell answers is modelled as a
single function from global index pairs to cells. -/

/-- One cell of a distance-matrix response:
`status_ok` models `element["status"] == "OK"` and
`value` models `element["distance"]["value"]`. -/
structure CellResponse where
  status_ok : Bool
  value : ℚ
deriving DecidableEq

/-- The value the inner loop of `calculate_distance_matrix` stores into
`distance_matrix[i][j]`: `0` on the diagonal, the returned distance when the
cell status is OK, and the sentinel `999999` otherwise (app.py lines 158-167). -/
def cellWrite (resp : ℕ → ℕ → CellResponse) (i j : ℕ) : ℚ :=
  if i = j then 0
  else if (resp i j).status_ok then (resp i j).value
  else 999999

/-- Python's `range(start, stop, step)` (ascending case), with explicit fuel;
`stop` steps of fuel suffice whenever `step > 0`. -/
def pyRangeAux : ℕ → ℕ → ℕ → ℕ → List ℕ
  | 0, _, _, _ => []
  | fuel + 1, start, stop, step =>
      if start < stop then start :: pyRangeAux fuel (start + step) stop step else []

/-- Python's `range(start, stop, step)`. -/
def pyRange (start stop step : ℕ) : List ℕ :=
  pyRangeAux stop start stop step

/-- The list of block-start pairs `(i_start, j_start)` iterated by the two
nested batching loops of `calculate_distance_matrix`; one collaborator
query is issued per element. -/
def blockStartPairs (n B : ℕ) : List (ℕ × ℕ) :=
  (pyRange 0 n B).flatMap (fun is_ => (pyRange 0 n B).map (fun js => (is_, js)))

/-- Number of block queries issued by `calculate_distance_matrix` for
`n` locations and batch size `B`. -/
def queryCount (n B : ℕ) : ℕ :=
  (blockStartPairs n B).length

/-- Overwrite a single matrix cell `p` with the value the source stores
there (the matrix is a total function `ℕ → ℕ → ℚ`; cells outside the
written region keep their previous value). -/
def writeOne (resp : ℕ → ℕ → CellResponse) (p : ℕ × ℕ) (m : ℕ → ℕ → ℚ) :
    ℕ → ℕ → ℚ :=
  fun a b => if a = p.1 ∧ b = p.2 then cellWrite resp p.1 p.2 else m a b

/-- The double cell loop for one block
(`for i_local, i_global in enumerate(range(i_start, i_end)): for j_local, j_global in ...`). -/
def writeBlock (resp : ℕ → ℕ → CellResponse) (iStart iEnd jStart jEnd : ℕ)
    (m : ℕ → ℕ → ℚ) : ℕ → ℕ → ℚ :=
  (pyRange iStart iEnd 1).foldl
    (fun acc ig => (pyRange jStart jEnd 1).foldl
      (fun acc2 jg => writeOne resp (ig, jg) acc2) acc) m

/-- `calculate_distance_matrix` (app.py lines 134-167), abstracted over the
number of locations `n`, the batch size `B` (the source fixes `B = 25`) and
the collaborator's per-cell answers: starts from `np.zeros((n, n))` and
writes each block via `writeBlock`. -/
def calculateDistanceMatrix (n B : ℕ) (resp : ℕ → ℕ → CellResponse) :
    ℕ → ℕ → ℚ :=
  (pyRange 0 n B).foldl
    (fun m iStart =>
      (pyRange 0 n B).foldl
        (fun m2 jStart =>
          writeBlock resp iStart (min (iStart + B) n) jStart (min (jStart + B) n) m2)
        m)
    (fun _ _ => 0)

/-- The batch size hard-coded in the source (`BATCH_SIZE = 25`). -/
def BATCH_SIZE : ℕ := 25

/-- The cells written by one block, in loop order. -/
def blockCells (iStart iEnd jStart jEnd : ℕ) : List (ℕ × ℕ) :=
  (pyRange iStart iEnd 1).flatMap
    (fun ig => (pyRange jStart jEnd 1).map (fun jg => (ig, jg)))

/-- Sequence of single-cell writes. -/
def applyWrites (resp : ℕ → ℕ → CellResponse) (L : List (ℕ × ℕ))
    (m0 : ℕ → ℕ → ℚ) : ℕ → ℕ → ℚ :=
  L.foldl (fun m p => writeOne resp p m) m0

/-- Every cell written by the batching loops, over all blocks. -/
def allCells (n B : ℕ) : List (ℕ × ℕ) :=
  (pyRange 0 n B).flatMap
    (fun is_ => (pyRange 0 n B).flatMap
      (fun js => blockCells is_ (min (is_ + B) n) js (min (js + B) n)))

theorem pyRangeAux_eq {step : ℕ} (hstep : 0 < step) (stop : ℕ) :
    ∀ (q start fuel : ℕ), (stop - start + step - 1) / step = q → stop - start ≤ fuel →
      pyRangeAux fuel start stop step = (List.range q).map (fun k => start + k * step) := by
  intro q
  induction q with
  | zero =>
    intro start fuel hq hf
    have hse : stop ≤ start := by
      by_contra hlt
      have h1 : step ≤ stop - start + step - 1 := by omega
      have := (Nat.one_le_div_iff hstep).mpr h1
      omega
    cases fuel with
    | zero => simp [pyRangeAux]
    | succ f => simp [pyRangeAux, Nat.not_lt.mpr hse]
  | succ q ih =>
    intro start fuel hq hf
    have hlt : start < stop := by
      by_contra hge
      have h0 : stop - start = 0 := by omega
      rw [h0] at hq
      have : (0 + step - 1) / step = 0 := Nat.div_eq_of_lt (by omega)
      omega
    have hfuel : 1 ≤ fuel := by omega
    obtain ⟨f, rfl⟩ : ∃ f, fuel = f + 1 := ⟨fuel - 1, by omega⟩
    have hstep1 : pyRangeAux (f + 1) start stop step
        = start :: pyRangeAux f (start + step) stop step := by
      simp [pyRangeAux, hlt]
    have hdivnext : (stop - (start + step) + step - 1) / step = q := by
      rcases le_or_lt (stop - start) step with hle | hgt
      · have h01 : stop - (start + step) = 0 := by omega
        have h02 : stop - start + step - 1 = (stop - start - 1) + step := by omega
        rw [h02, Nat.add_div_right _ hstep, Nat.div_eq_of_lt (by omega)] at hq
        rw [h01]
        rw [Nat.div_eq_of_lt (by omega)]
        omega
      · have h02 : stop - start + step - 1 = (stop - start - 1) + step := by omega
        rw [h02, Nat.add_div_right _ hstep] at hq
        have h03 : stop - (start + step) + step - 1 = stop - start - 1 := by omega
        rw [h03]
        omega
    have hfnext : stop - (start + step) ≤ f := by omega
    rw [hstep1, ih (start + step) f hdivnext hfnext, List.range_succ_eq_map]
    simp only [List.map_cons, List.map_map]
    congr 1
    · omega
    · apply List.map_congr_left
      intro k _
      simp only [Function.comp_apply, Nat.succ_mul, Nat.succ_eq_add_one]
      omega

theorem pyRange_eq {B : ℕ} (hB : 0 < B) (n : ℕ) :
    pyRange 0 n B = (List.range ((n + B - 1) / B)).map (fun k => k * B) := by
  have := pyRangeAux_eq hB n ((n + B - 1) / B) 0 n (by simp) (by omega)
  rw [pyRange, this]
  simp

theorem pyRange_one (s e : ℕ) :
    pyRange s e 1 = (List.range (e - s)).map (fun k => s + k) := by
  have := @pyRangeAux_eq 1 Nat.one_pos e (e - s) s e (by simp) (by omega)
  rw [pyRange, this]
  simp

theorem mem_pyRange_one {s e a : ℕ} : a ∈ pyRange s e 1 ↔ s ≤ a ∧ a < e := by
  rw [pyRange_one]
  simp only [List.mem_map, List.mem_range]
  constructor
  · rintro ⟨k, hk, rfl⟩
    omega
  · rintro ⟨h1, h2⟩
    exact ⟨a - s, by omega, by omega⟩

theorem applyWrites_apply (resp : ℕ → ℕ → CellResponse) :
    ∀ (L : List (ℕ × ℕ)) (m0 : ℕ → ℕ → ℚ) (a b : ℕ),
      applyWrites resp L m0 a b
        = if (a, b) ∈ L then cellWrite resp a b else m0 a b := by
  intro L
  induction L with
  | nil => intro m0 a b; simp [applyWrites]
  | cons p L ih =>
    intro m0 a b
    have hstep : applyWrites resp (p :: L) m0 = applyWrites resp L (writeOne resp p m0) := rfl
    rw [hstep, ih]
    by_cases hmem : (a, b) ∈ L
    · simp [hmem]
    · by_cases hp : (a, b) = p
      · subst hp
        simp [hmem, writeOne]
      · have h1 : ¬(a = p.1 ∧ b = p.2) := by
          intro h
          exact hp (Prod.ext h.1 h.2)
        simp [hmem, hp, writeOne, h1]

theorem foldl_flatMap_fold {α β γ : Type} (l : List α) (g : α → List β)
    (f : γ → β → γ) (init : γ) :
    (l.flatMap g).foldl f init = l.foldl (fun acc a => (g a).foldl f acc) init := by
  induction l generalizing init with
  | nil => simp
  | cons a l ih => simp [List.flatMap_cons, List.foldl_append, ih]

theorem writeBlock_eq (resp : ℕ → ℕ → CellResponse) (iStart iEnd jStart jEnd : ℕ)
    (m : ℕ → ℕ → ℚ) :
    writeBlock resp iStart iEnd jStart jEnd m
      = applyWrites resp (blockCells iStart iEnd jStart jEnd) m := by
  rw [writeBlock, blockCells, applyWrites, foldl_flatMap_fold]
  apply List.foldl_ext
  intro acc ig _
  rw [List.foldl_map]

theorem calculateDistanceMatrix_eq (n B : ℕ) (resp : ℕ → ℕ → CellResponse) :
    calculateDistanceMatrix n B resp
      = applyWrites resp (allCells n B) (fun _ _ => 0) := by
  rw [calculateDistanceMatrix, allCells, applyWrites, foldl_flatMap_fold]
  apply List.foldl_ext
  intro acc is_ _
  rw [foldl_flatMap_fold]
  apply List.foldl_ext
  intro acc2 js _
  rw [writeBlock_eq, applyWrites]

theorem mem_allCells {n B a b : ℕ} (hB : 0 < B) (ha : a < n) (hb : b < n) :
    (a, b) ∈ allCells n B := by
  have hn : 1 ≤ n := by omega
  have hceil : (n + B - 1) / B = (n - 1) / B + 1 := by
    have h1 : n + B - 1 = (n - 1) + B := by omega
    rw [h1, Nat.add_div_right _ hB]
  have hmemStart : ∀ c, c < n → c / B * B ∈ pyRange 0 n B := by
    intro c hc
    rw [pyRange_eq hB]
    refine List.mem_map.mpr ⟨c / B, List.mem_range.mpr ?_, rfl⟩
    rw [hceil]
    have hdle : c / B ≤ (n - 1) / B := Nat.div_le_div_right (by omega)
    omega
  have hmemIn : ∀ c, c < n → c ∈ pyRange (c / B * B) (min (c / B * B + B) n) 1 := by
    intro c hc
    rw [mem_pyRange_one]
    have h1 : c / B * B ≤ c := Nat.div_mul_le_self c B
    have h2 := Nat.div_add_mod c B
    have h3 : c % B < B := Nat.mod_lt _ hB
    have h4 : c / B * B = B * (c / B) := Nat.mul_comm _ _
    exact ⟨h1, by omega⟩
  refine List.mem_flatMap.mpr ⟨a / B * B, hmemStart a ha, ?_⟩
  refine List.mem_flatMap.mpr ⟨b / B * B, hmemStart b hb, ?_⟩
  rw [blockCells]
  refine List.mem_flatMap.mpr ⟨a, hmemIn a ha, ?_⟩
  exact List.mem_map.mpr ⟨b, hmemIn b hb, rfl⟩

/-- Pointwise value of the assembled matrix: every in-range cell holds
exactly the value the single-cell write rule assigns it. -/
theorem calculateDistanceMatrix_apply {n B a b : ℕ} (resp : ℕ → ℕ → CellResponse)
    (hB : 0 < B) (ha : a < n) (hb : b < n) :
    calculateDistanceMatrix n B resp a b = cellWrite resp a b := by
  rw [calculateDistanceMatrix_eq, applyWrites_apply]
  simp [mem_allCells hB ha hb]

theorem length_pyRange {B : ℕ} (hB : 0 < B) (n : ℕ) :
    (pyRange 0 n B).length = (n + B - 1) / B := by
  rw [pyRange_eq hB]
  simp

/-- Sum of all finite (status-OK) off-diagonal distances reported by the
collaborator for an `n`-location build; these are exactly the finite real
distances appearing in the assembled matrix. -/
def finiteSum (n : ℕ) (resp : ℕ → ℕ → CellResponse) : ℚ :=
  ∑ p ∈ (Finset.range n ×ˢ Finset.range n).filter
      (fun p => p.1 ≠ p.2 ∧ (resp p.1 p.2).status_ok = true),
    (resp p.1 p.2).value

/-- C4: every matrix produced by a successful run of
`calculate_distance_matrix` has diagonal entries exactly `0`, regardless of
the collaborator's answers for self-pair cells. -/
theorem calculateDistanceMatrix_diag_zero (n B i : ℕ) (resp : ℕ → ℕ → CellResponse)
    (hB : 0 < B) (hi : i < n) :
    calculateDistanceMatrix n B resp i i = 0 := by
  rw [calculateDistanceMatrix_apply resp hB hi hi, cellWrite, if_pos rfl]

/-- A collaborator whose self-pair answers are nonzero (and OK), to witness
that the diagonal is still forced to zero. -/
def respDiag : ℕ → ℕ → CellResponse := fun i j => ⟨true, (i : ℚ) * 10 + (j : ℚ) + 7⟩

theorem calculateDistanceMatrix_diag_zero_witness :
    0 < 25 ∧ 1 < 3 ∧ (respDiag 1 1).value = 18 ∧
      calculateDistanceMatrix 3 25 respDiag 1 1 = 0 :=
  ⟨by decide, by decide, by norm_num [respDiag],
    calculateDistanceMatrix_diag_zero 3 25 1 respDiag (by decide) (by decide)⟩

/-- C5: the batching loops issue exactly `⌈n/B⌉²` block queries, the
assembled matrix does not depend on the batch size (given identical
per-cell collaborator answers), and for `n = 5`, `B = 2` exactly
`9` queries are issued. -/
theorem batching_correct (n B B2 : ℕ) (resp : ℕ → ℕ → CellResponse)
    (hB : 0 < B) (hB2 : 0 < B2) :
    queryCount n B = ((n + B - 1) / B) ^ 2 ∧
    (∀ i j, i < n → j < n →
      calculateDistanceMatrix n B resp i j = calculateDistanceMatrix n B2 resp i j) ∧
    queryCount 5 2 = 9 := by
  refine ⟨?_, ?_, ?_⟩
  · rw [queryCount, blockStartPairs, List.length_flatMap]
    simp only [Function.comp_def, List.length_map]
    rw [List.map_const', List.sum_replicate, smul_eq_mul, length_pyRange hB, sq]
  · intro i j hi hj
    rw [calculateDistanceMatrix_apply resp hB hi hj,
      calculateDistanceMatrix_apply resp hB2 hi hj]
  · decide

/-- An arbitrary concrete collaborator for the batching witness. -/
def respW : ℕ → ℕ → CellResponse := fun i j => ⟨(i + j) % 3 ≠ 0, (i : ℚ) * 100 + j⟩

theorem batching_correct_witness :
    0 < 2 ∧ 0 < 5 ∧
    (queryCount 5 2 = ((5 + 2 - 1) / 2) ^ 2 ∧
      (∀ i j, i < 5 → j < 5 →
        calculateDistanceMatrix 5 2 respW i j = calculateDistanceMatrix 5 5 respW i j) ∧
      queryCount 5 2 = 9) :=
  ⟨by decide, by decide, batching_correct 5 2 5 respW (by decide) (by decide)⟩

/-- A collaborator reporting the cell (0,1) unreachable while the finite
distance for (1,0) is `2000000`, exceeding the fixed sentinel. -/
def respBig : ℕ → ℕ → CellResponse :=
  fun i j => if i = 0 ∧ j = 1 then ⟨false, 0⟩ else ⟨true, 2000000⟩

/-- C6 fails as stated: the sentinel is the fixed constant `999999`, which
does not exceed the sum of the finite real distances in the matrix when the
collaborator reports a distance of `2000000` for the reachable cell. -/
theorem sentinel_not_dominant :
    (respBig 0 1).status_ok = false ∧
    calculateDistanceMatrix 2 BATCH_SIZE respBig 0 1 = 999999 ∧
    finiteSum 2 respBig = 2000000 ∧
    ¬ finiteSum 2 respBig < calculateDistanceMatrix 2 BATCH_SIZE respBig 0 1 := by
  have hm : calculateDistanceMatrix 2 BATCH_SIZE respBig 0 1 = 999999 := by
    rw [calculateDistanceMatrix_apply respBig (by decide) (by decide) (by decide)]
    rfl
  have hs : finiteSum 2 respBig = 2000000 := by
    have hset : (Finset.range 2 ×ˢ Finset.range 2).filter
        (fun p => p.1 ≠ p.2 ∧ (respBig p.1 p.2).status_ok = true) = {(1, 0)} := by
      decide
    rw [finiteSum, hset, Finset.sum_singleton]
    rfl
  refine ⟨rfl, hm, hs, ?_⟩
  rw [hm, hs]
  norm_num

/-- C6 amended: the sentinel assigned to a not-OK cell is the fixed value
`999999`; it exceeds the sum of all finite real distances in the matrix
exactly when that sum stays below `999999` (true for plausible walking
distances, but not for arbitrary collaborator values). -/
theorem sentinel_dominates_of_small_sum (n B i j : ℕ) (resp : ℕ → ℕ → CellResponse)
    (hB : 0 < B) (hi : i < n) (hj : j < n) (hij : i ≠ j)
    (hfail : (resp i j).status_ok = false)
    (hsum : finiteSum n resp < 999999) :
    calculateDistanceMatrix n B resp i j = 999999 ∧
    finiteSum n resp < calculateDistanceMatrix n B resp i j := by
  have h : calculateDistanceMatrix n B resp i j = 999999 := by
    rw [calculateDistanceMatrix_apply resp hB hi hj, cellWrite, if_neg hij, hfail]
    simp
  exact ⟨h, by rw [h]; exact hsum⟩

/-- A collaborator with one unreachable cell and small finite distances. -/
def respSmall : ℕ → ℕ → CellResponse :=
  fun i j => if i = 0 ∧ j = 1 then ⟨false, 0⟩ else ⟨true, 100⟩

theorem sentinel_dominates_of_small_sum_witness :
    0 < 25 ∧ 0 < 2 ∧ 1 < 2 ∧ (0 : ℕ) ≠ 1 ∧ (respSmall 0 1).status_ok = false ∧
    finiteSum 2 respSmall < 999999 ∧
    (calculateDistanceMatrix 2 25 respSmall 0 1 = 999999 ∧
      finiteSum 2 respSmall < calculateDistanceMatrix 2 25 respSmall 0 1) := by
  have hs : finiteSum 2 respSmall = 100 := by
    have hset : (Finset.range 2 ×ˢ Finset.range 2).filter
        (fun p => p.1 ≠ p.2 ∧ (respSmall p.1 p.2).status_ok = true) = {(1, 0)} := by
      decide
    rw [finiteSum, hset, Finset.sum_singleton]
    rfl
  have hlt : finiteSum 2 respSmall < 999999 := by rw [hs]; norm_num
  exact ⟨by decide, by decide, by decide, by decide, rfl, hlt,
    sentinel_dominates_of_small_sum 2 25 0 1 respSmall (by decide) (by decide)
      (by decide) (by decide) rfl hlt⟩

/-! ## Route optimizer (`optimize_route`)

`optimize_route` builds a Miller–Tucker–Zemlin MIP model (app.py lines
189-216): binary arc variables `x[i][j]`, integer order variables `u[i]`
with bounds `[1, n-1]`, out/in-degree constraints over `j ≠ i`, and MTZ
constraints over `i, j ∈ {1,…,n-1}`.  The external solver is modelled by
its contract: on success it hands back some variable assignment satisfying
every model constraint (with binary variables read back through the `> 0.5`
tolerance, i.e. as Booleans), and on a provably optimal solve no feasible
assignment has smaller objective value. -/

/-- Constraint 1 of the model: exactly one outgoing arc per location
(`xsum(x[i][j] for j in range(n) if i != j) == 1`). -/
def degOut {n : ℕ} (x : Fin n → Fin n → Bool) : Prop :=
  ∀ i : Fin n,
    ((Finset.univ : Finset (Fin n)).filter (fun j => i ≠ j ∧ x i j = true)).card = 1

/-- Constraint 2 of the model: exactly one incoming arc per location
(`xsum(x[i][j] for i in range(n) if i != j) == 1`). -/
def degIn {n : ℕ} (x : Fin n → Fin n → Bool) : Prop :=
  ∀ j : Fin n,
    ((Finset.univ : Finset (Fin n)).filter (fun i => i ≠ j ∧ x i j = true)).card = 1

/-- Constraint 3, subtour elimination
(`u[i] - u[j] + n * x[i][j] <= n - 1` for `i, j in range(1, n)`, `i ≠ j`). -/
def mtz {n : ℕ} (x : Fin n → Fin n → Bool) (u : Fin n → ℤ) : Prop :=
  ∀ i j : Fin n, 1 ≤ i.val → 1 ≤ j.val → i ≠ j →
    u i - u j + n * (if x i j then 1 else 0) ≤ (n : ℤ) - 1

/-- Variable bounds of the order variables (`lb=1, ub=n-1`). -/
def uBounds {n : ℕ} (u : Fin n → ℤ) : Prop :=
  ∀ i : Fin n, 1 ≤ u i ∧ u i ≤ (n : ℤ) - 1

/-- Every model constraint of `optimize_route` together: exactly what the
solver guarantees about the assignment it returns on an OPTIMAL or
FEASIBLE status. -/
def MIPFeasible {n : ℕ} (x : Fin n → Fin n → Bool) (u : Fin n → ℤ) : Prop :=
  degOut x ∧ degIn x ∧ mtz x u ∧ uBounds u

/-- The model objective
(`xsum(distance_matrix[i][j] * x[i][j] for i in range(n) for j in range(n))`). -/
def objective {n : ℕ} (d : Fin n → Fin n → ℚ) (x : Fin n → Fin n → Bool) : ℚ :=
  ∑ i : Fin n, ∑ j : Fin n, d i j * (if x i j then 1 else 0)

/-- The body of the inner `for j in range(n)` search of the extraction loop:
the first `j` (in index order) that is unvisited and has `x[current][j] > 0.5`. -/
def findNext {n : ℕ} (x : Fin n → Fin n → Bool) (visited : Finset (Fin n))
    (current : Fin n) : Option (Fin n) :=
  (List.finRange n).find? (fun j => decide (j ∉ visited) && x current j)

/-- The `while len(visited) < n` extraction loop (app.py lines 230-236),
with explicit fuel; an iteration finding no arc models the source looping
forever (it returns the order built so far, and is proved unreachable for
feasible assignments). -/
def extractLoop {n : ℕ} (x : Fin n → Fin n → Bool) :
    ℕ → Fin n → List (Fin n) → Finset (Fin n) → List (Fin n)
  | 0, _, order, _ => order
  | fuel + 1, current, order, visited =>
      if visited.card < n then
        match findNext x visited current with
        | some j => extractLoop x fuel j (order ++ [j]) (insert j visited)
        | none => order
      else order

/-- The visiting order extracted by `optimize_route` from the solver
solution: start at the station (`visit_order = [0]`, `visited = {0}`) and
follow selected arcs greedily. -/
def extractTour {n : ℕ} [NeZero n] (x : Fin n → Fin n → Bool) : List (Fin n) :=
  extractLoop x n 0 [0] {0}

/-- The successor selected by the model at `i`: the unique `j ≠ i` with
`x i j` (defaults to `i` if none exists; under `degOut` one always does). -/
def succFn {n : ℕ} (x : Fin n → Fin n → Bool) (i : Fin n) : Fin n :=
  match (List.finRange n).find? (fun j => decide (i ≠ j) && x i j) with
  | some j => j
  | none => i

/-- The property the spec's Tour invariant asks of a visiting order:
length `n`, no repeats, begins at index 0. -/
def IsTour {n : ℕ} [NeZero n] (vo : List (Fin n)) : Prop :=
  vo.length = n ∧ vo.Nodup ∧ vo.head? = some 0

/-- All segment distances of the assembled route, in order: consecutive
pairs of the visiting order followed by the final return leg
`distance_matrix[visit_order[-1]][0]` (app.py lines 242-247). -/
def segmentsAll {n : ℕ} [NeZero n] (d : Fin n → Fin n → ℚ) (vo : List (Fin n)) :
    List ℚ :=
  ((vo.zip vo.tail).map fun p => d p.1 p.2) ++ [d (vo.getLastD 0) 0]

/-- `total_distance = sum(segment_distances)` (app.py line 249). -/
def totalDistance {n : ℕ} [NeZero n] (d : Fin n → Fin n → ℚ) (vo : List (Fin n)) : ℚ :=
  (segmentsAll d vo).sum

/-- The per-leg breakdown reported to the caller
(`segment_distances[:-1]`, excluding the return leg; app.py line 252). -/
def reportedSegments {n : ℕ} [NeZero n] (d : Fin n → Fin n → ℚ) (vo : List (Fin n)) :
    List ℚ :=
  (segmentsAll d vo).dropLast

/-! ### Structure of feasible assignments -/

theorem find?_eq_some_of_unique {α : Type} {p : α → Bool} {a : α} :
    ∀ {l : List α}, a ∈ l → p a = true → (∀ b ∈ l, p b = true → b = a) →
      l.find? p = some a := by
  intro l
  induction l with
  | nil => intro h; cases h
  | cons c l ih =>
    intro ha hpa huniq
    by_cases hc : p c = true
    · have hca : c = a := huniq c (by simp) hc
      subst hca
      simp [List.find?_cons_of_pos _ hc]
    · rw [List.find?_cons_of_neg _ (by simpa using hc)]
      have ha2 : a ∈ l := by
        rcases List.mem_cons.mp ha with h | h
        · subst h; exact absurd hpa hc
        · exact h
      exact ih ha2 hpa (fun b hb hpb => huniq b (List.mem_cons_of_mem _ hb) hpb)

theorem succFn_spec {n : ℕ} {x : Fin n → Fin n → Bool} (hx : degOut x) (i : Fin n) :
    i ≠ succFn x i ∧ x i (succFn x i) = true ∧
      ∀ j : Fin n, i ≠ j → x i j = true → j = succFn x i := by
  obtain ⟨j0, hj0⟩ := Finset.card_eq_one.mp (hx i)
  have hj0mem : j0 ∈ (Finset.univ : Finset (Fin n)).filter
      (fun j => i ≠ j ∧ x i j = true) := by
    rw [hj0]; exact Finset.mem_singleton_self j0
  rw [Finset.mem_filter] at hj0mem
  have huniq : ∀ j : Fin n, i ≠ j → x i j = true → j = j0 := by
    intro j hij hxij
    have hjm : j ∈ (Finset.univ : Finset (Fin n)).filter
        (fun j => i ≠ j ∧ x i j = true) :=
      Finset.mem_filter.mpr ⟨Finset.mem_univ j, hij, hxij⟩
    rw [hj0] at hjm
    exact Finset.mem_singleton.mp hjm
  have hfind : (List.finRange n).find? (fun j => decide (i ≠ j) && x i j) = some j0 := by
    apply find?_eq_some_of_unique (List.mem_finRange j0)
    · simp [hj0mem.2.1, hj0mem.2.2]
    · intro b _ hb
      simp only [Bool.and_eq_true, decide_eq_true_eq] at hb
      exact huniq b hb.1 hb.2
  have hsucc : succFn x i = j0 := by rw [succFn, hfind]
  rw [hsucc]
  exact ⟨hj0mem.2.1, hj0mem.2.2, huniq⟩

theorem succFn_injective {n : ℕ} {x : Fin n → Fin n → Bool}
    (hx : degOut x) (hin : degIn x) : Function.Injective (succFn x) := by
  intro a b hab
  obtain ⟨i0, hi0⟩ := Finset.card_eq_one.mp (hin (succFn x a))
  have hmem : ∀ c : Fin n, c ≠ succFn x a → x c (succFn x a) = true → c = i0 := by
    intro c hc hxc
    have hcm : c ∈ (Finset.univ : Finset (Fin n)).filter
        (fun i => i ≠ succFn x a ∧ x i (succFn x a) = true) :=
      Finset.mem_filter.mpr ⟨Finset.mem_univ c, hc, hxc⟩
    rw [hi0] at hcm
    exact Finset.mem_singleton.mp hcm
  have hsa := succFn_spec hx a
  have hsb := succFn_spec hx b
  have ha0 : a = i0 := hmem a (fun h => hsa.1 h) hsa.2.1
  have hb0 : b = i0 := by
    refine hmem b (fun h => hsb.1 (hab ▸ h)) ?_
    rw [hab]
    exact hsb.2.1
  rw [ha0, hb0]

theorem u_step {n : ℕ} {x : Fin n → Fin n → Bool} {u : Fin n → ℤ}
    (hx : degOut x) (hm : mtz x u) {i : Fin n}
    (hi : 1 ≤ i.val) (hsi : 1 ≤ (succFn x i).val) : u i + 1 ≤ u (succFn x i) := by
  have hs := succFn_spec hx i
  have h := hm i (succFn x i) hi hsi hs.1
  rw [hs.2.1, if_pos rfl] at h
  omega

theorem orbit_reaches {n : ℕ} [NeZero n] {x : Fin n → Fin n → Bool} {u : Fin n → ℤ}
    (hf : MIPFeasible x u) :
    ∀ (m : ℕ) (v : Fin n), (u v).toNat ≤ m → ∃ k ≤ m, (succFn x)^[k] 0 = v := by
  intro m
  induction m with
  | zero =>
    intro v hv
    exfalso
    have := (hf.2.2.2 v).1
    omega
  | succ m ih =>
    intro v hv
    by_cases hv0 : v = 0
    · exact ⟨0, Nat.zero_le _, by simp [hv0]⟩
    · have hbij : Function.Bijective (succFn x) :=
        Finite.injective_iff_bijective.mp (succFn_injective hf.1 hf.2.1)
      obtain ⟨w, hw⟩ := hbij.2 v
      by_cases hw0 : w = 0
      · refine ⟨1, by omega, ?_⟩
        rw [Function.iterate_one, ← hw0, hw]
      · have hwv : 1 ≤ w.val := by
          rcases Nat.eq_zero_or_pos w.val with h0 | h1
          · exact absurd (Fin.ext (by simp [h0])) hw0
          · exact h1
        have hvv : 1 ≤ v.val := by
          rcases Nat.eq_zero_or_pos v.val with h0 | h1
          · exact absurd (Fin.ext (by simp [h0])) hv0
          · exact h1
        have hstep : u w + 1 ≤ u v := by
          have := u_step hf.1 hf.2.2.1 hwv (by rw [hw]; exact hvv)
          rw [hw] at this
          exact this
        have hwm : (u w).toNat ≤ m := by
          have h1 := (hf.2.2.2 w).1
          omega
        obtain ⟨k, hk, hk2⟩ := ih w hwm
        refine ⟨k + 1, by omega, ?_⟩
        rw [Function.iterate_succ_apply', hk2, hw]

theorem orbit_surj {n : ℕ} [NeZero n] {x : Fin n → Fin n → Bool} {u : Fin n → ℤ}
    (hf : MIPFeasible x u) (v : Fin n) : ∃ k < n, (succFn x)^[k] 0 = v := by
  obtain ⟨k, hk, hk2⟩ := orbit_reaches hf ((u v).toNat) v le_rfl
  have h1 := (hf.2.2.2 v).2
  have h2 := (hf.2.2.2 v).1
  have hn : n ≠ 0 := NeZero.ne n
  exact ⟨k, by omega, hk2⟩

theorem orbit_inj {n : ℕ} [NeZero n] {x : Fin n → Fin n → Bool} {u : Fin n → ℤ}
    (hf : MIPFeasible x u) :
    ∀ k1 k2 : ℕ, k1 < n → k2 < n →
      (succFn x)^[k1] 0 = (succFn x)^[k2] 0 → k1 = k2 := by
  have hsurj : Function.Surjective
      (fun k : Fin n => (succFn x)^[k.val] (0 : Fin n)) := by
    intro v
    obtain ⟨k, hk, hk2⟩ := orbit_surj hf v
    exact ⟨⟨k, hk⟩, hk2⟩
  have hinj := Finite.injective_iff_surjective.mpr hsurj
  intro k1 k2 h1 h2 heq
  have h3 : (⟨k1, h1⟩ : Fin n) = ⟨k2, h2⟩ := hinj heq
  exact congrArg Fin.val h3

theorem orbit_period {n : ℕ} [NeZero n] {x : Fin n → Fin n → Bool} {u : Fin n → ℤ}
    (hf : MIPFeasible x u) : (succFn x)^[n] 0 = 0 := by
  obtain ⟨k, hk, hk2⟩ := orbit_surj hf ((succFn x)^[n] 0)
  rcases Nat.eq_zero_or_pos k with hk0 | hkpos
  · rw [hk0] at hk2
    exact hk2.symm
  · exfalso
    have hsplit : (succFn x)^[n] (0 : Fin n) = (succFn x)^[k] ((succFn x)^[n - k] 0) := by
      rw [← Function.iterate_add_apply]
      congr 1
      omega
    have hinj : Function.Injective ((succFn x)^[k]) :=
      Function.Injective.iterate (succFn_injective hf.1 hf.2.1) k
    have hcancel : (succFn x)^[n - k] (0 : Fin n) = (succFn x)^[0] 0 := by
      apply hinj
      rw [Function.iterate_zero_apply, ← hsplit, hk2]
    have := orbit_inj hf (n - k) 0 (by omega) (by omega) hcancel
    omega

/-- The orbit of the station under the selected-arc successor: the list
`[0, σ 0, σ² 0, …, σ^(n-1) 0]`. -/
def orbitList {n : ℕ} [NeZero n] (x : Fin n → Fin n → Bool) : List (Fin n) :=
  (List.range n).map (fun k => (succFn x)^[k] 0)

theorem orbitList_nodup {n : ℕ} [NeZero n] {x : Fin n → Fin n → Bool} {u : Fin n → ℤ}
    (hf : MIPFeasible x u) : (orbitList x).Nodup := by
  rw [orbitList]
  refine List.Nodup.map_on ?_ (List.nodup_range n)
  intro k1 h1 k2 h2 heq
  exact orbit_inj hf k1 k2 (List.mem_range.mp h1) (List.mem_range.mp h2) heq

theorem extractLoop_succ {n : ℕ} (x : Fin n → Fin n → Bool) (fuel : ℕ)
    (current : Fin n) (order : List (Fin n)) (visited : Finset (Fin n)) :
    extractLoop x (fuel + 1) current order visited =
      if visited.card < n then
        match findNext x visited current with
        | some j => extractLoop x fuel j (order ++ [j]) (insert j visited)
        | none => order
      else order := rfl

theorem extractLoop_inv {n : ℕ} [NeZero n] {x : Fin n → Fin n → Bool} {u : Fin n → ℤ}
    (hf : MIPFeasible x u) :
    ∀ (m t : ℕ), t < n → n - 1 - t = m →
      extractLoop x (n - t) ((succFn x)^[t] 0)
        ((List.range (t + 1)).map (fun k => (succFn x)^[k] 0))
        ((List.range (t + 1)).map (fun k => (succFn x)^[k] 0)).toFinset
      = orbitList x := by
  have hpre : ∀ t, t + 1 ≤ n →
      ((List.range (t + 1)).map (fun k => (succFn x)^[k] (0 : Fin n))).Nodup := by
    intro t ht
    refine List.Nodup.map_on ?_ (List.nodup_range (t + 1))
    intro k1 h1 k2 h2 heq
    rw [List.mem_range] at h1 h2
    exact orbit_inj hf k1 k2 (by omega) (by omega) heq
  have hcard : ∀ t, t + 1 ≤ n →
      ((List.range (t + 1)).map (fun k => (succFn x)^[k] (0 : Fin n))).toFinset.card
        = t + 1 := by
    intro t ht
    rw [List.toFinset_card_of_nodup (hpre t ht)]
    simp
  intro m
  induction m with
  | zero =>
    intro t ht hmt
    have ht1 : t = n - 1 := by omega
    subst ht1
    have hn1 : n - 1 + 1 = n := by omega
    have hfuel : n - (n - 1) = 0 + 1 := by omega
    rw [hfuel, extractLoop_succ, if_neg]
    · rw [orbitList, hn1]
    · rw [hcard (n - 1) (by omega), hn1]
      omega
  | succ m ih =>
    intro t ht hmt
    have ht2 : t + 1 < n := by omega
    have hfuel : n - t = (n - (t + 1)) + 1 := by omega
    rw [hfuel, extractLoop_succ, if_pos (by rw [hcard t (by omega)]; exact ht2)]
    have hxnext : x ((succFn x)^[t] 0) ((succFn x)^[t + 1] 0) = true := by
      rw [Function.iterate_succ_apply']
      exact (succFn_spec hf.1 _).2.1
    have hnotmem : (succFn x)^[t + 1] (0 : Fin n) ∉
        ((List.range (t + 1)).map (fun k => (succFn x)^[k] (0 : Fin n))).toFinset := by
      rw [List.mem_toFinset]
      intro hmem
      obtain ⟨k, hk, hkeq⟩ := List.mem_map.mp hmem
      rw [List.mem_range] at hk
      have := orbit_inj hf k (t + 1) (by omega) (by omega) hkeq
      omega
    have hfind : findNext x
        ((List.range (t + 1)).map (fun k => (succFn x)^[k] 0)).toFinset
        ((succFn x)^[t] 0) = some ((succFn x)^[t + 1] 0) := by
      rw [findNext]
      apply find?_eq_some_of_unique (List.mem_finRange _)
      · simp only [Bool.and_eq_true, decide_eq_true_eq]
        exact ⟨hnotmem, hxnext⟩
      · intro b _ hb
        simp only [Bool.and_eq_true, decide_eq_true_eq] at hb
        have hbne : (succFn x)^[t] (0 : Fin n) ≠ b := by
          intro h
          apply hb.1
          rw [List.mem_toFinset, ← h]
          exact List.mem_map.mpr ⟨t, List.mem_range.mpr (by omega), rfl⟩
        have hbsucc := (succFn_spec hf.1 ((succFn x)^[t] 0)).2.2 b hbne hb.2
        rw [hbsucc, Function.iterate_succ_apply']
    rw [hfind]
    have hord : (List.range (t + 1)).map (fun k => (succFn x)^[k] (0 : Fin n))
          ++ [(succFn x)^[t + 1] 0]
        = (List.range (t + 1 + 1)).map (fun k => (succFn x)^[k] 0) := by
      conv_rhs => rw [List.range_succ, List.map_append]
      rfl
    have hvis : insert ((succFn x)^[t + 1] (0 : Fin n))
          ((List.range (t + 1)).map (fun k => (succFn x)^[k] 0)).toFinset
        = ((List.range (t + 1 + 1)).map (fun k => (succFn x)^[k] 0)).toFinset := by
      rw [← hord]
      ext v
      simp only [Finset.mem_insert, List.mem_toFinset, List.mem_append,
        List.mem_singleton]
      tauto
    show extractLoop x (n - (t + 1)) ((succFn x)^[t + 1] 0)
        ((List.range (t + 1)).map (fun k => (succFn x)^[k] 0) ++ [(succFn x)^[t + 1] 0])
        (insert ((succFn x)^[t + 1] 0)
          ((List.range (t + 1)).map (fun k => (succFn x)^[k] 0)).toFinset)
      = orbitList x
    rw [hord, hvis]
    exact ih (t + 1) ht2 (by omega)

theorem extractTour_eq_orbitList {n : ℕ} [NeZero n] {x : Fin n → Fin n → Bool}
    {u : Fin n → ℤ} (hf : MIPFeasible x u) : extractTour x = orbitList x := by
  have h0 : 0 < n := Nat.pos_of_ne_zero (NeZero.ne n)
  have hinv := extractLoop_inv hf (n - 1 - 0) 0 h0 rfl
  have h1 : (List.range (0 + 1)).map (fun k => (succFn x)^[k] (0 : Fin n)) = [0] := by
    simp
  rw [h1] at hinv
  simpa [extractTour] using hinv

theorem orbitList_isTour {n : ℕ} [NeZero n] {x : Fin n → Fin n → Bool}
    {u : Fin n → ℤ} (hf : MIPFeasible x u) : IsTour (orbitList x) := by
  refine ⟨by simp [orbitList], orbitList_nodup hf, ?_⟩
  have h0 : n ≠ 0 := NeZero.ne n
  obtain ⟨m, rfl⟩ : ∃ m, n = m + 1 := ⟨n - 1, by omega⟩
  simp [orbitList, List.range_succ_eq_map]

theorem orbitList_complete {n : ℕ} [NeZero n] {x : Fin n → Fin n → Bool}
    {u : Fin n → ℤ} (hf : MIPFeasible x u) : ∀ v : Fin n, v ∈ orbitList x := by
  intro v
  obtain ⟨k, hk, hkeq⟩ := orbit_surj hf v
  exact List.mem_map.mpr ⟨k, List.mem_range.mpr hk, hkeq⟩

/-- C1: for every solver assignment satisfying the model constraints (the
situation whenever `optimize_route` returns successfully), the greedy
arc-following extraction visits all `n` locations: the visiting order has
length `n`, repeats no index, begins at index 0, and contains every index. -/
theorem extracted_tour_is_permutation {n : ℕ} [NeZero n]
    (x : Fin n → Fin n → Bool) (u : Fin n → ℤ) (hf : MIPFeasible x u) :
    IsTour (extractTour x) ∧ ∀ v : Fin n, v ∈ extractTour x := by
  rw [extractTour_eq_orbitList hf]
  exact ⟨orbitList_isTour hf, orbitList_complete hf⟩

instance decidableMIPFeasible {n : ℕ} (x : Fin n → Fin n → Bool) (u : Fin n → ℤ) :
    Decidable (MIPFeasible x u) := by
  unfold MIPFeasible degOut degIn mtz uBounds
  infer_instance

/-- The concrete optimal assignment for the 3-location example: the cycle
`0 → 1 → 2 → 0` with order variables `u = (1, 1, 2)`. -/
def x3 : Fin 3 → Fin 3 → Bool := fun i j => j.val = (i.val + 1) % 3

/-- Order variables accompanying `x3`. -/
def u3 : Fin 3 → ℤ := fun i => if i.val = 0 then 1 else (i.val : ℤ)

theorem extracted_tour_is_permutation_witness :
    MIPFeasible x3 u3 ∧
      (IsTour (extractTour x3) ∧ ∀ v : Fin 3, v ∈ extractTour x3) :=
  ⟨by decide, extracted_tour_is_permutation x3 u3 (by decide)⟩

/-! ### Cycle cost of a visiting order -/

theorem list_sum_map_range (g : ℕ → ℚ) (m : ℕ) :
    ((List.range m).map g).sum = ∑ k ∈ Finset.range m, g k := by
  induction m with
  | zero => simp
  | succ m ih =>
    rw [List.range_succ, List.map_append, List.sum_append, Finset.sum_range_succ, ih]
    simp

theorem getD_zero_of_head {n : ℕ} [NeZero n] {vo : List (Fin n)}
    (hhead : vo.head? = some 0) : vo.getD 0 0 = 0 := by
  cases vo with
  | nil => simp at hhead
  | cons a l =>
    simp only [List.head?_cons, Option.some.injEq] at hhead
    simp [hhead]

/-- The code's `total_distance` equals the cyclic sum
`Σ_k d(vo[k], vo[(k+1) mod n])` for any length-`n` visiting order that
begins at 0. -/
theorem totalDistance_eq_cycleSum {n : ℕ} [NeZero n] (d : Fin n → Fin n → ℚ)
    {vo : List (Fin n)} (hlen : vo.length = n) (hhead : vo.head? = some 0) :
    totalDistance d vo
      = ∑ k ∈ Finset.range n, d (vo.getD k 0) (vo.getD ((k + 1) % n) 0) := by
  have hn : n ≠ 0 := NeZero.ne n
  have hzip : ((vo.zip vo.tail).map fun p => d p.1 p.2)
      = (List.range (n - 1)).map (fun k => d (vo.getD k 0) (vo.getD (k + 1) 0)) := by
    apply List.ext_getElem
    · simp [List.length_zip, List.length_tail, hlen]
    · intro i h1 h2
      simp only [List.length_map, List.length_zip, List.length_tail, hlen,
        List.length_range] at h1 h2
      have hi : i < n - 1 := h2
      have hb1 : i < vo.length := by omega
      have hb2 : i + 1 < vo.length := by omega
      have hbt : i < vo.tail.length := by rw [List.length_tail]; omega
      rw [List.getElem_map, List.getElem_map, List.getElem_range, List.getElem_zip,
        List.getElem_tail, List.getD_eq_getElem vo 0 hb1, List.getD_eq_getElem vo 0 hb2]
  have hlast : vo.getLastD 0 = vo.getD (n - 1) 0 := by
    rw [List.getLastD_eq_getLast?, List.getLast?_eq_getElem?, hlen,
      List.getD_eq_getElem?_getD]
  rw [totalDistance, segmentsAll, List.sum_append, hzip, list_sum_map_range]
  obtain ⟨m, rfl⟩ : ∃ m, n = m + 1 := ⟨n - 1, by omega⟩
  rw [Finset.sum_range_succ]
  have hmod : ∀ k, k < m → (k + 1) % (m + 1) = k + 1 := by
    intro k hk
    exact Nat.mod_eq_of_lt (by omega)
  have hsum1 : ∑ k ∈ Finset.range m, d (vo.getD k 0) (vo.getD ((k + 1) % (m + 1)) 0)
      = ∑ k ∈ Finset.range m, d (vo.getD k 0) (vo.getD (k + 1) 0) := by
    apply Finset.sum_congr rfl
    intro k hk
    rw [hmod k (Finset.mem_range.mp hk)]
  rw [hsum1]
  have hlastleg : d (vo.getLastD 0) 0
      = d (vo.getD m 0) (vo.getD ((m + 1) % (m + 1)) 0) := by
    rw [hlast, Nat.mod_self, getD_zero_of_head hhead]
    simp
  rw [List.sum_cons, List.sum_nil, hlastleg]
  simp only [add_zero]
  congr 1

/-! ### Objective value versus cycle cost -/

theorem two_le_of_feasible {n : ℕ} [NeZero n] {x : Fin n → Fin n → Bool}
    {u : Fin n → ℤ} (hf : MIPFeasible x u) : 2 ≤ n := by
  have h0 : n ≠ 0 := NeZero.ne n
  by_contra h
  have hn1 : n = 1 := by omega
  subst hn1
  have hs := succFn_spec hf.1 0
  exact hs.1 (Subsingleton.elim _ _)

theorem orbitList_getD {n : ℕ} [NeZero n] (x : Fin n → Fin n → Bool) {k : ℕ}
    (hk : k < n) : (orbitList x).getD k 0 = (succFn x)^[k] 0 := by
  rw [orbitList, List.getD_eq_getElem _ _ (by simpa using hk), List.getElem_map,
    List.getElem_range]

/-- The cycle cost of the extracted orbit equals the sum of the selected
arc distances `Σ_i d(i, σ i)`. -/
theorem totalDistance_orbitList {n : ℕ} [NeZero n] (d : Fin n → Fin n → ℚ)
    {x : Fin n → Fin n → Bool} {u : Fin n → ℤ} (hf : MIPFeasible x u) :
    totalDistance d (orbitList x) = ∑ i : Fin n, d i (succFn x i) := by
  obtain ⟨hlen, hnodup, hhead⟩ := orbitList_isTour hf
  rw [totalDistance_eq_cycleSum d hlen hhead]
  have hstep : ∀ k, k < n →
      d ((orbitList x).getD k 0) ((orbitList x).getD ((k + 1) % n) 0)
        = d ((succFn x)^[k] 0) (succFn x ((succFn x)^[k] 0)) := by
    intro k hk
    rw [orbitList_getD x hk, orbitList_getD x (Nat.mod_lt _ (by omega))]
    congr 1
    rcases Nat.lt_or_ge (k + 1) n with hlt | hge
    · rw [Nat.mod_eq_of_lt hlt, Function.iterate_succ_apply']
    · have hkeq : k = n - 1 := by omega
      subst hkeq
      have h1 : n - 1 + 1 = n := by omega
      rw [h1, Nat.mod_self, ← Function.iterate_succ_apply' (succFn x) (n - 1) 0,
        Nat.succ_eq_add_one, h1, orbit_period hf]
      simp
  have hconv : ∑ k ∈ Finset.range n,
        d ((orbitList x).getD k 0) ((orbitList x).getD ((k + 1) % n) 0)
      = ∑ k ∈ Finset.range n,
        d ((succFn x)^[k] 0) (succFn x ((succFn x)^[k] 0)) := by
    apply Finset.sum_congr rfl
    intro k hk
    exact hstep k (Finset.mem_range.mp hk)
  rw [hconv, ← Fin.sum_univ_eq_sum_range
    (fun k => d ((succFn x)^[k] 0) (succFn x ((succFn x)^[k] 0))) n]
  have hbij : Function.Bijective (fun k : Fin n => (succFn x)^[k.val] (0 : Fin n)) := by
    refine Finite.injective_iff_bijective.mp ?_
    intro k1 k2 heq
    have := orbit_inj hf k1.val k2.val k1.isLt k2.isLt heq
    exact Fin.ext this
  exact Equiv.sum_comp (Equiv.ofBijective _ hbij) (fun i => d i (succFn x i))

/-- The selected-arc cycle cost is a lower bound on the model objective
when the distance matrix is non-negative. -/
theorem cycle_le_objective {n : ℕ} (d : Fin n → Fin n → ℚ)
    (hd : ∀ i j, 0 ≤ d i j) {x : Fin n → Fin n → Bool} (hx : degOut x) :
    ∑ i : Fin n, d i (succFn x i) ≤ objective d x := by
  rw [objective]
  apply Finset.sum_le_sum
  intro i _
  have hinner : ∑ j : Fin n, d i j * (if x i j then 1 else 0)
      = ∑ j ∈ Finset.univ.filter (fun j => x i j = true), d i j := by
    rw [Finset.sum_filter]
    apply Finset.sum_congr rfl
    intro j _
    by_cases hj : x i j = true
    · rw [if_pos hj, if_pos hj, mul_one]
    · rw [if_neg hj, if_neg (by simpa using hj), mul_zero]
  rw [hinner]
  have hmem : succFn x i ∈ Finset.univ.filter (fun j => x i j = true) :=
    Finset.mem_filter.mpr ⟨Finset.mem_univ _, (succFn_spec hx i).2.1⟩
  have hsub : {succFn x i} ⊆ Finset.univ.filter (fun j => x i j = true) := by
    intro j hj
    rw [Finset.mem_singleton] at hj
    rw [hj]
    exact hmem
  calc d i (succFn x i) = ∑ j ∈ {succFn x i}, d i j := by rw [Finset.sum_singleton]
    _ ≤ ∑ j ∈ Finset.univ.filter (fun j => x i j = true), d i j :=
        Finset.sum_le_sum_of_subset_of_nonneg hsub (fun j _ _ => hd i j)

/-- Every tour (permutation of `{0,…,n-1}` starting at 0) induces a
feasible assignment of the MIP model whose objective value is exactly the
tour's cycle cost. -/
theorem tour_feasible {n : ℕ} [NeZero n] (hn2 : 2 ≤ n) (d : Fin n → Fin n → ℚ)
    {vo : List (Fin n)} (ht : IsTour vo) :
    ∃ (x2 : Fin n → Fin n → Bool) (u2 : Fin n → ℤ),
      MIPFeasible x2 u2 ∧ objective d x2 = totalDistance d vo := by
  obtain ⟨hlen, hnodup, hhead⟩ := ht
  have hnpos : 0 < n := by omega
  have hginj : Function.Injective (fun k : Fin n => vo.get (Fin.cast hlen.symm k)) := by
    intro a b hab
    have h1 := List.nodup_iff_injective_get.mp hnodup hab
    exact Fin.ext (by simpa using congrArg Fin.val h1)
  have hgbij := Finite.injective_iff_bijective.mp hginj
  let e : Fin n ≃ Fin n := Equiv.ofBijective _ hgbij
  let cyc : Fin n → Fin n := fun a => ⟨(a.val + 1) % n, Nat.mod_lt _ hnpos⟩
  let nxt : Fin n → Fin n := fun i => e (cyc (e.symm i))
  let x2 : Fin n → Fin n → Bool := fun i j => decide (j = nxt i)
  let u2 : Fin n → ℤ := fun i => max 1 ((e.symm i).val : ℤ)
  have he0 : e 0 = 0 := by
    show vo.get (Fin.cast hlen.symm 0) = 0
    cases vo with
    | nil =>
      exfalso
      simp only [List.length_nil] at hlen
      omega
    | cons a l =>
      simp only [List.head?_cons, Option.some.injEq] at hhead
      exact hhead
  have hval1 : ∀ i : Fin n, 1 ≤ i.val → 1 ≤ (e.symm i).val := by
    intro i hi
    by_contra h
    have h0 : e.symm i = 0 := Fin.ext (by rw [Fin.val_zero]; omega)
    have h1 : i = e 0 := by rw [← h0, Equiv.apply_symm_apply]
    rw [he0] at h1
    have := congrArg Fin.val h1
    simp at this
    omega
  have hnxt_ne : ∀ i, nxt i ≠ i := by
    intro i heq
    have h2 : e (cyc (e.symm i)) = e (e.symm i) := by
      rw [Equiv.apply_symm_apply]
      exact heq
    have h1 := e.injective h2
    have hv : ((e.symm i).val + 1) % n = (e.symm i).val := congrArg Fin.val h1
    have hs := (e.symm i).isLt
    rcases Nat.lt_or_ge ((e.symm i).val + 1) n with hlt | hge
    · rw [Nat.mod_eq_of_lt hlt] at hv
      omega
    · have hn1 : (e.symm i).val + 1 = n := by omega
      rw [hn1, Nat.mod_self] at hv
      omega
  have hcycinj : Function.Injective cyc := by
    intro p q hpq
    have hv : (p.val + 1) % n = (q.val + 1) % n := congrArg Fin.val hpq
    have hp := p.isLt
    have hq := q.isLt
    apply Fin.ext
    rcases Nat.lt_or_ge (p.val + 1) n with h1 | h1 <;>
      rcases Nat.lt_or_ge (q.val + 1) n with h2 | h2
    · rw [Nat.mod_eq_of_lt h1, Nat.mod_eq_of_lt h2] at hv
      omega
    · have hq1 : q.val + 1 = n := by omega
      rw [Nat.mod_eq_of_lt h1, hq1, Nat.mod_self] at hv
      omega
    · have hp1 : p.val + 1 = n := by omega
      rw [hp1, Nat.mod_self, Nat.mod_eq_of_lt h2] at hv
      omega
    · omega
  have hnxt_inj : Function.Injective nxt := by
    intro a b hab
    have h1 := e.injective hab
    have h2 := hcycinj h1
    have h3 := congrArg e h2
    rwa [Equiv.apply_symm_apply, Equiv.apply_symm_apply] at h3
  have hx2iff : ∀ i j, x2 i j = true ↔ j = nxt i := by
    intro i j
    simp [x2]
  have hdegOut : degOut x2 := by
    intro i
    have hfl : (Finset.univ : Finset (Fin n)).filter
        (fun j => i ≠ j ∧ x2 i j = true) = {nxt i} := by
      ext j
      simp only [Finset.mem_filter, Finset.mem_univ, true_and, Finset.mem_singleton,
        hx2iff]
      constructor
      · rintro ⟨h1, h2⟩
        exact h2
      · intro h2
        refine ⟨fun hij => hnxt_ne i ?_, h2⟩
        rw [← h2, ← hij]
    rw [hfl, Finset.card_singleton]
  have hdegIn : degIn x2 := by
    intro j
    obtain ⟨p, hp⟩ := (Finite.injective_iff_bijective.mp hnxt_inj).2 j
    have hfl : (Finset.univ : Finset (Fin n)).filter
        (fun i => i ≠ j ∧ x2 i j = true) = {p} := by
      ext i
      simp only [Finset.mem_filter, Finset.mem_univ, true_and, Finset.mem_singleton,
        hx2iff]
      constructor
      · rintro ⟨h1, h2⟩
        apply hnxt_inj
        rw [hp, ← h2]
      · intro h2
        subst h2
        refine ⟨fun hij => hnxt_ne i ?_, hp.symm⟩
        rw [hp, hij]
    rw [hfl, Finset.card_singleton]
  have hub : uBounds u2 := by
    intro i
    constructor
    · exact le_max_left _ _
    · apply max_le
      · omega
      · have := (e.symm i).isLt
        omega
  have hmtz : mtz x2 u2 := by
    intro i j hi hj hij
    by_cases hx : x2 i j = true
    · have hji : j = nxt i := (hx2iff i j).mp hx
      have hsi : 1 ≤ (e.symm i).val := hval1 i hi
      have hsj : 1 ≤ (e.symm j).val := hval1 j hj
      have hsymmj : e.symm j = cyc (e.symm i) := by
        rw [hji]
        show e.symm (e (cyc (e.symm i))) = _
        rw [Equiv.symm_apply_apply]
      have hv : (e.symm j).val = ((e.symm i).val + 1) % n := congrArg Fin.val hsymmj
      have hslt := (e.symm i).isLt
      have hite : (if x2 i j then (1 : ℤ) else 0) = 1 := by simp [hx]
      rw [hite]
      rcases Nat.lt_or_ge ((e.symm i).val + 1) n with hlt | hge
      · rw [Nat.mod_eq_of_lt hlt] at hv
        have hui : u2 i = ((e.symm i).val : ℤ) := max_eq_right (by exact_mod_cast hsi)
        have huj : u2 j = ((e.symm j).val : ℤ) := max_eq_right (by exact_mod_cast hsj)
        rw [hui, huj, hv]
        push_cast
        omega
      · have hn1 : (e.symm i).val + 1 = n := by omega
        rw [hn1, Nat.mod_self] at hv
        omega
    · have hite : (if x2 i j then (1 : ℤ) else 0) = 0 := by simp [hx]
      rw [hite, mul_zero, add_zero]
      have h1 : u2 i ≤ (n : ℤ) - 1 := by
        apply max_le
        · omega
        · have := (e.symm i).isLt
          omega
      have h2 : 1 ≤ u2 j := le_max_left _ _
      omega
  have hobj : objective d x2 = ∑ i : Fin n, d i (nxt i) := by
    rw [objective]
    apply Finset.sum_congr rfl
    intro i _
    have hconv : ∀ j : Fin n, d i j * (if x2 i j then (1 : ℚ) else 0)
        = if j = nxt i then d i j else 0 := by
      intro j
      by_cases hj : j = nxt i
      · rw [if_pos hj, if_pos ((hx2iff i j).mpr hj), mul_one]
      · rw [if_neg hj, if_neg (by simpa [hx2iff] using hj), mul_zero]
    rw [Finset.sum_congr rfl (fun j _ => hconv j), Finset.sum_ite_eq' Finset.univ
      (nxt i) (d i), if_pos (Finset.mem_univ _)]
  have htot : totalDistance d vo = ∑ i : Fin n, d i (nxt i) := by
    rw [totalDistance_eq_cycleSum d hlen hhead]
    have hF : ∀ k : Fin n,
        d (vo.getD k.val 0) (vo.getD ((k.val + 1) % n) 0) = d (e k) (nxt (e k)) := by
      intro k
      have hb1 : k.val < vo.length := by rw [hlen]; exact k.isLt
      have hb2 : (k.val + 1) % n < vo.length := by rw [hlen]; exact Nat.mod_lt _ hnpos
      have h1 : vo.getD k.val 0 = e k := by
        rw [List.getD_eq_getElem vo 0 hb1]
        rfl
      have h2 : vo.getD ((k.val + 1) % n) 0 = e (cyc k) := by
        rw [List.getD_eq_getElem vo 0 hb2]
        rfl
      have h3 : nxt (e k) = e (cyc k) := by
        show e (cyc (e.symm (e k))) = e (cyc k)
        rw [Equiv.symm_apply_apply]
      rw [h1, h2, h3]
    rw [← Fin.sum_univ_eq_sum_range
      (fun k => d (vo.getD k 0) (vo.getD ((k + 1) % n) 0)) n]
    rw [Finset.sum_congr rfl (fun k _ => hF k)]
    exact Equiv.sum_comp e (fun i => d i (nxt i))
  exact ⟨x2, u2, ⟨hdegOut, hdegIn, hmtz, hub⟩, by rw [hobj, htot]⟩

/-- C2: when the solver proves optimality, the returned total distance is
the minimum cycle cost over all Hamiltonian tours (every index once,
starting at 0, including the return arc to 0). -/
theorem returned_total_is_minimum {n : ℕ} [NeZero n] (d : Fin n → Fin n → ℚ)
    (hd : ∀ i j, 0 ≤ d i j) (x : Fin n → Fin n → Bool) (u : Fin n → ℤ)
    (hf : MIPFeasible x u)
    (hopt : ∀ (x2 : Fin n → Fin n → Bool) (u2 : Fin n → ℤ),
      MIPFeasible x2 u2 → objective d x ≤ objective d x2) :
    IsLeast {c : ℚ | ∃ vo : List (Fin n), IsTour vo ∧ c = totalDistance d vo}
      (totalDistance d (extractTour x)) := by
  constructor
  · refine ⟨extractTour x, ?_, rfl⟩
    rw [extractTour_eq_orbitList hf]
    exact orbitList_isTour hf
  · rintro c ⟨vo, hvo, rfl⟩
    obtain ⟨x2, u2, hf2, hobj2⟩ := tour_feasible (two_le_of_feasible hf) d hvo
    calc totalDistance d (extractTour x)
        = ∑ i : Fin n, d i (succFn x i) := by
          rw [extractTour_eq_orbitList hf, totalDistance_orbitList d hf]
      _ ≤ objective d x := cycle_le_objective d hd hf.1
      _ ≤ objective d x2 := hopt x2 u2 hf2
      _ = totalDistance d vo := hobj2

/-- The 3-location example matrix `[[0,100,200],[100,0,150],[200,150,0]]`. -/
def d3 : Fin 3 → Fin 3 → ℚ := fun i j =>
  if i = j then 0
  else if (i = 0 ∧ j = 1) ∨ (i = 1 ∧ j = 0) then 100
  else if (i = 1 ∧ j = 2) ∨ (i = 2 ∧ j = 1) then 150
  else 200

theorem tour3_cases {vo : List (Fin 3)} (ht : IsTour vo) :
    vo = [0, 1, 2] ∨ vo = [0, 2, 1] := by
  obtain ⟨hlen, hnodup, hhead⟩ := ht
  obtain ⟨a, b, c, rfl⟩ := List.length_eq_three.mp hlen
  simp only [List.head?_cons, Option.some.injEq] at hhead
  subst hhead
  have hcases : ∀ p q : Fin 3, p ≠ 0 → q ≠ 0 → p ≠ q →
      (p = 1 ∧ q = 2) ∨ (p = 2 ∧ q = 1) := by decide
  have h1 : (0 : Fin 3) ∉ [b, c] := (List.nodup_cons.mp hnodup).1
  have h2 : b ∉ [c] := (List.nodup_cons.mp (List.nodup_cons.mp hnodup).2).1
  have hb0 : b ≠ 0 := fun h => h1 (by rw [← h]; simp)
  have hc0 : c ≠ 0 := fun h => h1 (by rw [← h]; simp)
  have hbc : b ≠ c := fun h => h2 (by rw [h]; simp)
  rcases hcases b c hb0 hc0 hbc with ⟨rfl, rfl⟩ | ⟨rfl, rfl⟩
  · exact Or.inl rfl
  · exact Or.inr rfl

theorem totalDistance_d3_012 : totalDistance d3 [0, 1, 2] = 450 := by
  have h : totalDistance d3 [0, 1, 2] = 100 + (150 + (200 + 0)) := rfl
  rw [h]
  norm_num

theorem totalDistance_d3_021 : totalDistance d3 [0, 2, 1] = 450 := by
  have h : totalDistance d3 [0, 2, 1] = 200 + (150 + (100 + 0)) := rfl
  rw [h]
  norm_num

theorem objective_d3_lower :
    ∀ (x2 : Fin 3 → Fin 3 → Bool) (u2 : Fin 3 → ℤ),
      MIPFeasible x2 u2 → (450 : ℚ) ≤ objective d3 x2 := by
  intro x2 u2 h2
  have h3 : totalDistance d3 (orbitList x2) = ∑ i : Fin 3, d3 i (succFn x2 i) :=
    totalDistance_orbitList d3 h2
  have h4 : ∑ i : Fin 3, d3 i (succFn x2 i) ≤ objective d3 x2 :=
    cycle_le_objective d3 (by decide) h2.1
  have h5 := orbitList_isTour h2
  rcases tour3_cases h5 with h | h
  · rw [h, totalDistance_d3_012] at h3
    exact h3 ▸ h4
  · rw [h, totalDistance_d3_021] at h3
    exact h3 ▸ h4

theorem objective_d3_x3 : objective d3 x3 = 450 := by
  rw [objective, Fin.sum_univ_three]
  rw [Fin.sum_univ_three, Fin.sum_univ_three, Fin.sum_univ_three]
  norm_num [d3, x3, Fin.ext_iff]

theorem returned_total_is_minimum_witness :
    (∀ i j : Fin 3, (0 : ℚ) ≤ d3 i j) ∧ MIPFeasible x3 u3 ∧
    (∀ (x2 : Fin 3 → Fin 3 → Bool) (u2 : Fin 3 → ℤ),
      MIPFeasible x2 u2 → objective d3 x3 ≤ objective d3 x2) ∧
    IsLeast {c : ℚ | ∃ vo : List (Fin 3), IsTour vo ∧ c = totalDistance d3 vo}
      (totalDistance d3 (extractTour x3)) ∧
    totalDistance d3 (extractTour x3) = 450 := by
  have hopt : ∀ (x2 : Fin 3 → Fin 3 → Bool) (u2 : Fin 3 → ℤ),
      MIPFeasible x2 u2 → objective d3 x3 ≤ objective d3 x2 := by
    intro x2 u2 h2
    rw [objective_d3_x3]
    exact objective_d3_lower x2 u2 h2
  have hex : extractTour x3 = [0, 1, 2] := by decide
  refine ⟨by decide, by decide, hopt,
    returned_total_is_minimum d3 (by decide) x3 u3 (by decide) hopt, ?_⟩
  rw [hex]
  exact totalDistance_d3_012

/-! ### The two-location case (C3) -/

/-- An asymmetric 2×2 zero-diagonal matrix: `[[0,5],[7,0]]`. -/
def d2c : Fin 2 → Fin 2 → ℚ := fun i j => if i = j then 0 else if i = 0 then 5 else 7

/-- The unique feasible arc selection for `n = 2`. -/
def x2c : Fin 2 → Fin 2 → Bool := fun i j => i ≠ j

/-- Order variables for `n = 2` (both bounds are 1). -/
def u2c : Fin 2 → ℤ := fun _ => 1

/-- C3 as stated is false: on `[[0,5],[7,0]]` a successful run extracts the
tour `[0,1]` with `total_distance = d[0][1] + d[1][0] = 12`, while
`2 × d[0][1] = 10`. -/
theorem two_by_two_claim_false :
    MIPFeasible x2c u2c ∧ d2c 0 0 = 0 ∧ d2c 1 1 = 0 ∧
    extractTour x2c = [0, 1] ∧
    totalDistance d2c (extractTour x2c) = 12 ∧
    2 * d2c 0 1 = 10 ∧
    totalDistance d2c (extractTour x2c) ≠ 2 * d2c 0 1 := by
  have hex : extractTour x2c = [0, 1] := by decide
  have h12 : totalDistance d2c [0, 1] = 5 + (7 + 0) := rfl
  have h01 : d2c 0 1 = 5 := rfl
  refine ⟨by decide, rfl, rfl, hex, ?_, ?_, ?_⟩
  · rw [hex, h12]
    norm_num
  · rw [h01]
    norm_num
  · rw [hex, h12, h01]
    norm_num

/-- C3 amended: for every 2×2 zero-diagonal matrix, a successful run
returns the visiting order `[0, 1]` and
`total_distance = d[0][1] + d[1][0]` (which equals `2 × d[0][1]` exactly
when the matrix is symmetric). -/
theorem two_by_two_route (d : Fin 2 → Fin 2 → ℚ) (_hdiag : d 0 0 = 0 ∧ d 1 1 = 0)
    (x : Fin 2 → Fin 2 → Bool) (u : Fin 2 → ℤ) (hf : MIPFeasible x u) :
    extractTour x = [0, 1] ∧ totalDistance d (extractTour x) = d 0 1 + d 1 0 := by
  have hex : extractTour x = [0, succFn x 0] := by
    rw [extractTour_eq_orbitList hf, orbitList]
    rfl
  have hs0 : succFn x 0 = 1 := by
    have h1 := (succFn_spec hf.1 0).1
    have hall : ∀ v : Fin 2, v ≠ 0 → v = 1 := by decide
    exact hall _ (Ne.symm h1)
  rw [hex, hs0]
  refine ⟨rfl, ?_⟩
  have h : totalDistance d [0, 1] = d 0 1 + (d 1 0 + 0) := rfl
  rw [h]
  ring

theorem two_by_two_route_witness :
    (d2c 0 0 = 0 ∧ d2c 1 1 = 0) ∧ MIPFeasible x2c u2c ∧
    (extractTour x2c = [0, 1] ∧
      totalDistance d2c (extractTour x2c) = d2c 0 1 + d2c 1 0) :=
  ⟨⟨rfl, rfl⟩, by decide, two_by_two_route d2c ⟨rfl, rfl⟩ x2c u2c (by decide)⟩

/-! ### Route assembly breakdown (C7) -/

theorem zipmap_eq_range {n : ℕ} [NeZero n] (d : Fin n → Fin n → ℚ)
    {vo : List (Fin n)} (hlen : vo.length = n) :
    ((vo.zip vo.tail).map fun p => d p.1 p.2)
      = (List.range (n - 1)).map (fun k => d (vo.getD k 0) (vo.getD (k + 1) 0)) := by
  apply List.ext_getElem
  · simp [List.length_zip, List.length_tail, hlen]
  · intro i h1 h2
    simp only [List.length_map, List.length_zip, List.length_tail, hlen,
      List.length_range] at h1 h2
    have hb1 : i < vo.length := by omega
    have hb2 : i + 1 < vo.length := by omega
    have hbt : i < vo.tail.length := by rw [List.length_tail]; omega
    rw [List.getElem_map, List.getElem_map, List.getElem_range, List.getElem_zip,
      List.getElem_tail, List.getD_eq_getElem vo 0 hb1, List.getD_eq_getElem vo 0 hb2]

theorem reportedSegments_eq {n : ℕ} [NeZero n] (d : Fin n → Fin n → ℚ)
    (vo : List (Fin n)) :
    reportedSegments d vo = ((vo.zip vo.tail).map fun p => d p.1 p.2) := by
  rw [reportedSegments, segmentsAll, List.dropLast_concat]

/-- C7: the reported per-leg breakdown has exactly `n − 1` entries, its
`i`-th entry is `distance[visit_order[i]][visit_order[i+1]]`, and the total
distance is their sum plus the final return leg to index 0. -/
theorem route_breakdown {n : ℕ} [NeZero n] (d : Fin n → Fin n → ℚ)
    (x : Fin n → Fin n → Bool) (u : Fin n → ℤ) (hf : MIPFeasible x u) :
    (reportedSegments d (extractTour x)).length = n - 1 ∧
    (∀ i, i < n - 1 → (reportedSegments d (extractTour x)).getD i 0
        = d ((extractTour x).getD i 0) ((extractTour x).getD (i + 1) 0)) ∧
    totalDistance d (extractTour x)
      = (reportedSegments d (extractTour x)).sum
        + d ((extractTour x).getLastD 0) 0 := by
  have hlen : (extractTour x).length = n := by
    rw [extractTour_eq_orbitList hf]
    simp [orbitList]
  have hrep : reportedSegments d (extractTour x)
      = (List.range (n - 1)).map
          (fun k => d ((extractTour x).getD k 0) ((extractTour x).getD (k + 1) 0)) := by
    rw [reportedSegments_eq, zipmap_eq_range d hlen]
  refine ⟨?_, ?_, ?_⟩
  · rw [hrep]
    simp
  · intro i hi
    rw [hrep, List.getD_eq_getElem _ _ (by simpa using hi), List.getElem_map,
      List.getElem_range]
  · rw [totalDistance, segmentsAll, List.sum_append, reportedSegments_eq]
    simp

theorem route_breakdown_witness :
    MIPFeasible x3 u3 ∧
    ((reportedSegments d3 (extractTour x3)).length = 3 - 1 ∧
      (∀ i, i < 3 - 1 → (reportedSegments d3 (extractTour x3)).getD i 0
          = d3 ((extractTour x3).getD i 0) ((extractTour x3).getD (i + 1) 0)) ∧
      totalDistance d3 (extractTour x3)
        = (reportedSegments d3 (extractTour x3)).sum
          + d3 ((extractTour x3).getLastD 0) 0) :=
  ⟨by decide, route_breakdown d3 x3 u3 (by decide)⟩

/-! ### Failure behaviour of the optimizer (C8) -/

/-- The solver status values of the external MIP engine
(`mip.OptimizationStatus`). -/
inductive OptStatus where
  | OPTIMAL
  | FEASIBLE
  | INFEASIBLE
  | INT_INFEASIBLE
  | NO_SOLUTION_FOUND
  | UNBOUNDED
  | CUTOFF
  | LOADED
  | ERROR
deriving DecidableEq

/-- The failure test of `optimize_route` (app.py line 222):
`status != OPTIMAL and status != FEASIBLE`. -/
def raisesOptimizationError (s : OptStatus) : Bool :=
  !(s == OptStatus.OPTIMAL) && !(s == OptStatus.FEASIBLE)

/-- C8: the optimizer raises exactly when the status is neither OPTIMAL nor
FEASIBLE, and for every complete matrix with at least two locations the
constraint set is satisfiable — independently of the distance entries, so a
sentinel-cost leg can never make the model infeasible. -/
theorem optimization_error_iff {n : ℕ} (hn : 2 ≤ n) :
    (∀ s : OptStatus, raisesOptimizationError s = true ↔
      (s ≠ OptStatus.OPTIMAL ∧ s ≠ OptStatus.FEASIBLE)) ∧
    (∃ (x : Fin n → Fin n → Bool) (u : Fin n → ℤ), MIPFeasible x u) := by
  constructor
  · intro s
    rw [raisesOptimizationError]
    simp
  · haveI : NeZero n := ⟨by omega⟩
    have htour : IsTour (List.finRange n) := by
      refine ⟨List.length_finRange n, List.nodup_finRange n, ?_⟩
      obtain ⟨m, rfl⟩ : ∃ m, n = m + 1 := ⟨n - 1, by omega⟩
      rw [List.finRange_succ]
      rfl
    obtain ⟨x, u, hf, _⟩ := tour_feasible hn (fun _ _ => (0 : ℚ)) htour
    exact ⟨x, u, hf⟩

theorem optimization_error_iff_witness :
    (∀ s : OptStatus, raisesOptimizationError s = true ↔
      (s ≠ OptStatus.OPTIMAL ∧ s ≠ OptStatus.FEASIBLE)) ∧
    (∃ (x : Fin 3 → Fin 3 → Bool) (u : Fin 3 → ℤ), MIPFeasible x u) :=
  optimization_error_iff (by decide)

/-! ### Route data model (C9) -/

/-- The module constant `WALKING_SPEED_KM_H = 4.0` (app.py line 32). -/
def WALKING_SPEED_KM_H : ℚ := 4

/-- The `Route` dataclass fields used by `estimated_time`. -/
structure Route where
  total_distance : ℚ
  segment_distances : List ℚ

/-- `Route.estimated_time` (app.py lines 82-85):
`(total_distance / 1000) / WALKING_SPEED_KM_H * 60`. -/
def Route.estimated_time (r : Route) : ℚ :=
  r.total_distance / 1000 / WALKING_SPEED_KM_H * 60

/-- C9: the estimated time is exactly 15 minutes per kilometre of
`total_distance`, with the walking speed the hard-coded module constant 4. -/
theorem estimated_time_fifteen_per_km (r : Route) :
    r.estimated_time = 15 * (r.total_distance / 1000) ∧ WALKING_SPEED_KM_H = 4 := by
  refine ⟨?_, rfl⟩
  rw [Route.estimated_time, WALKING_SPEED_KM_H]
  ring

/-! ### Annotation atomicity (C10) -/

/-- The post-assembly annotation loop (app.py lines 169-170): place `k`
(0-based) receives `distance_matrix[0][k+1]` in its
`distance_from_station` field. -/
def annotatePlaces (m : ℕ → ℕ → ℚ) (places : List (Option ℚ)) : List (Option ℚ) :=
  (List.range places.length).map (fun k => some (m 0 (k + 1)))

/-- One block query of the build loop when the collaborator may raise:
`none` models an exception, which aborts the whole build. -/
def buildStep (n B : ℕ) (bq : ℕ → ℕ → Option (ℕ → ℕ → CellResponse))
    (acc : Option (ℕ → ℕ → ℚ)) (p : ℕ × ℕ) : Option (ℕ → ℕ → ℚ) :=
  match acc, bq p.1 p.2 with
  | some m, some resp =>
      some (writeBlock resp p.1 (min (p.1 + B) n) p.2 (min (p.2 + B) n) m)
  | _, _ => none

/-- `calculate_distance_matrix` including its effect on the input places'
`distance_from_station` fields: on any block-query exception the whole
build fails (`none`) and the places are returned untouched; only on
success is the annotation loop run. -/
def runCalculateDistanceMatrix (n B : ℕ)
    (bq : ℕ → ℕ → Option (ℕ → ℕ → CellResponse))
    (places : List (Option ℚ)) :
    Option (ℕ → ℕ → ℚ) × List (Option ℚ) :=
  match (blockStartPairs n B).foldl (buildStep n B bq) (some (fun _ _ => 0)) with
  | none => (none, places)
  | some m => (some m, annotatePlaces m places)

theorem foldl_buildStep_none (n B : ℕ) (bq : ℕ → ℕ → Option (ℕ → ℕ → CellResponse)) :
    ∀ (L : List (ℕ × ℕ)) (acc : Option (ℕ → ℕ → ℚ)),
      ((∃ p ∈ L, bq p.1 p.2 = none) ∨ acc = none) →
      L.foldl (buildStep n B bq) acc = none := by
  intro L
  induction L with
  | nil =>
    rintro acc (⟨p, hp, _⟩ | rfl)
    · cases hp
    · rfl
  | cons q L ih =>
    rintro acc h
    rw [List.foldl_cons]
    apply ih
    rcases h with ⟨p, hp, hbp⟩ | rfl
    · rcases List.mem_cons.mp hp with rfl | hpL
      · right
        cases acc <;> simp [buildStep, hbp]
      · exact Or.inl ⟨p, hpL, hbp⟩
    · right
      rfl

/-- C10: if any issued block query raises, the build returns the error and
every place's `distance_from_station` field is exactly the input one (no
partial annotation happens on failure). -/
theorem places_untouched_on_failure (n B : ℕ)
    (bq : ℕ → ℕ → Option (ℕ → ℕ → CellResponse)) (places : List (Option ℚ))
    (hfail : ∃ p ∈ blockStartPairs n B, bq p.1 p.2 = none) :
    runCalculateDistanceMatrix n B bq places = (none, places) := by
  rw [runCalculateDistanceMatrix,
    foldl_buildStep_none n B bq (blockStartPairs n B) _ (Or.inl hfail)]

/-- A collaborator whose every block query raises. -/
def bqFail : ℕ → ℕ → Option (ℕ → ℕ → CellResponse) := fun _ _ => none

theorem places_untouched_on_failure_witness :
    ((0, 0) ∈ blockStartPairs 2 25 ∧ bqFail 0 0 = none) ∧
    runCalculateDistanceMatrix 2 25 bqFail [some 3] = (none, [some 3]) :=
  ⟨⟨by decide, rfl⟩,
    places_untouched_on_failure 2 25 bqFail [some 3] ⟨(0, 0), by decide, rfl⟩⟩

end PyTsp
